import Mathlib

/-!
Verification of the Runbook frontend core against its specification.

The definitions below are shallow embeddings of the TypeScript sources:
* `Task` and friends mirror frontend/src/types/index.ts,
* `ActionStore` and its operations mirror frontend/src/stores/action-store.ts,
* `handleEvent` mirrors the SSE event handler in
  frontend/src/hooks/use-action-events.ts,
* `eventTypes` mirrors the listener registration in frontend/src/lib/sse.ts,
* `toggleDep` mirrors the dependency selector in
  frontend/src/components/workspace/add-task-dialog.tsx,
* `computeTiers` / `buildIndexMap` mirror the DAG layout helpers in
  frontend/src/types/index.ts (task-board component),
* the `BTask` world is modelled from the spec, because the backend mutation
  engine is not part of the frontend sources.

JavaScript `Record<string, X>` objects are modelled as functions
`String → Option X` (`none` = key absent); object spread is explicit merging.
-/

namespace Runbook

/-- Task record, translated field by field from the TypeScript interface
`Task` in frontend/src/types/index.ts. -/
structure Task where
  id : String
  action_id : String
  prompt : String
  status : String
  agent_type : String
  model : Option String
  dependencies : List String
  output_summary : Option String
  created_at : String
  updated_at : String
deriving DecidableEq

/-- One client-side log entry as stored by the action store
(level, message, timestamp produced at append time). -/
structure ClientLogEntry where
  level : String
  message : String
  timestamp : String
deriving DecidableEq

/-- The `{level, message}` argument of `appendTaskLog`. -/
structure LogInput where
  level : String
  message : String
deriving DecidableEq

/-- The `Partial<Task>` override stored in `taskOverrides`.  The event
handler only ever writes the `status` and `output_summary` fields, so those
are the fields of the model.  A `none` field is absent from the JS object;
for `output_summary` the inner `Option` is the string-or-null value. -/
structure TaskPatch where
  status : Option String := none
  output_summary : Option (Option String) := none
deriving DecidableEq

/-- JS object spread `{...old, ...new}`: fields present in the new partial
object win, absent fields keep the old value. -/
def mergePatch (old new : TaskPatch) : TaskPatch :=
  { status := new.status.orElse (fun _ => old.status),
    output_summary := new.output_summary.orElse (fun _ => old.output_summary) }

/-- `CodeExecutionState` from frontend/src/types/index.ts. -/
structure CodeExecutionState where
  status : String
  stdout : String
  stderr : String
  artifactIds : List String
deriving DecidableEq

/-- `defaultCodeState` from frontend/src/stores/action-store.ts. -/
def defaultCodeState : CodeExecutionState :=
  { status := "idle", stdout := "", stderr := "", artifactIds := [] }

/-- A `Partial<CodeExecutionState>` as passed to `setCodeExecution`. -/
structure CodePatch where
  status : Option String := none
  stdout : Option String := none
  stderr : Option String := none
  artifactIds : Option (List String) := none

/-- Spread `{...old, ...patch}` for code execution state. -/
def mergeCode (old : CodeExecutionState) (p : CodePatch) : CodeExecutionState :=
  { status := p.status.getD old.status,
    stdout := p.stdout.getD old.stdout,
    stderr := p.stderr.getD old.stderr,
    artifactIds := p.artifactIds.getD old.artifactIds }

/-- The zustand store state of frontend/src/stores/action-store.ts. -/
structure ActionStore where
  currentActionId : String
  taskOverrides : String → Option TaskPatch
  actionStatus : Option String
  recoveryAttempt : Option Nat
  taskLogs : String → Option (List ClientLogEntry)
  codeExecutions : String → Option CodeExecutionState

/-- `setTaskOverride`: merge the partial override into the existing entry
(spread of a possibly-absent old entry, then of the override). -/
def setTaskOverride (s : ActionStore) (taskId : String) (override : TaskPatch) :
    ActionStore :=
  { s with taskOverrides := fun id =>
      if id = taskId then
        some (mergePatch ((s.taskOverrides taskId).getD {}) override)
      else s.taskOverrides id }

/-- `setActionStatus` from the store. -/
def setActionStatus (s : ActionStore) (status : String) : ActionStore :=
  { s with actionStatus := some status }

/-- `setRecoveryAttempt` from the store. -/
def setRecoveryAttempt (s : ActionStore) (attempt : Option Nat) : ActionStore :=
  { s with recoveryAttempt := attempt }

/-- `appendTaskLog`: appends one entry to the task's list (missing key
treated as the empty list).  `now` is the value of
`new Date().toISOString()` at the moment of the call. -/
def appendTaskLog (s : ActionStore) (taskId : String) (log : LogInput)
    (now : String) : ActionStore :=
  { s with taskLogs := fun id =>
      if id = taskId then
        some (((s.taskLogs taskId).getD []) ++
          [{ level := log.level, message := log.message, timestamp := now }])
      else s.taskLogs id }

/-- `resetForAction` from the store. -/
def resetForAction (s : ActionStore) (actionId : String) : ActionStore :=
  { s with currentActionId := actionId,
           taskOverrides := fun _ => none,
           actionStatus := none,
           recoveryAttempt := none,
           taskLogs := fun _ => none,
           codeExecutions := fun _ => none }

/-- `setCodeExecution`: merge into the existing entry, defaulting a missing
entry to `defaultCodeState`. -/
def setCodeExecution (s : ActionStore) (taskId : String) (data : CodePatch) :
    ActionStore :=
  { s with codeExecutions := fun id =>
      if id = taskId then
        some (mergeCode ((s.codeExecutions taskId).getD defaultCodeState) data)
      else s.codeExecutions id }

/-- The JSON payload fields read by the event handler.  String fields absent
from a payload are modelled as `""`; snapshot's `status` is an `Option`
because the handler tests it for truthiness (`if (data.status)`). -/
structure EventData where
  task_id : String := ""
  tasks : List Task := []
  status : Option String := none
  output_summary : String := ""
  error : String := ""
  level : String := ""
  message : String := ""
  attempt : Nat := 0
  artifact_ids : List String := []
  stdout_preview : String := ""
  stderr : String := ""

/-- The snapshot case's loop over `data.tasks`, calling `setTaskOverride`
with each task's status and output summary. -/
def snapFold (s : ActionStore) (l : List Task) : ActionStore :=
  l.foldl (fun acc t =>
    setTaskOverride acc t.id
      { status := some t.status, output_summary := some t.output_summary }) s

/-- The SSE event handler of `useActionEvents`
(frontend/src/hooks/use-action-events.ts, lines 29-127): first the guard
ignoring events for a different action, then the switch on the event name,
cases in source order.  `queryClient.invalidateQueries` calls touch the
react-query cache, not this store, and are omitted.  `now` is the wall
clock used for log timestamps. -/
def handleEvent (actionId : String) (event : String) (d : EventData)
    (now : String) (s : ActionStore) : ActionStore :=
  if s.currentActionId ≠ "" ∧ s.currentActionId ≠ actionId then s
  else if event = "snapshot" then
    let s1 := snapFold s d.tasks
    match d.status with
    | none => s1
    | some st => if st = "" then s1 else setActionStatus s1 st
  else if event = "task.started" then
    setTaskOverride s d.task_id { status := some "running" }
  else if event = "task.completed" then
    setTaskOverride s d.task_id
      { status := some "completed", output_summary := some (some d.output_summary) }
  else if event = "task.failed" then
    setTaskOverride s d.task_id
      { status := some "failed", output_summary := some (some d.error) }
  else if event = "log.append" then
    appendTaskLog s d.task_id { level := d.level, message := d.message } now
  else if event = "action.completed" then
    setRecoveryAttempt (setActionStatus s "completed") none
  else if event = "action.failed" then
    setRecoveryAttempt (setActionStatus s "failed") none
  else if event = "action.started" then
    setActionStatus s "running"
  else if event = "action.retrying" then
    setRecoveryAttempt (setActionStatus s "running") (some d.attempt)
  else if event = "task.recovered" then
    s
  else if event = "code.started" then
    setCodeExecution s d.task_id
      { status := some "running", stdout := some "", stderr := some "",
        artifactIds := some [] }
  else if event = "code.completed" then
    setCodeExecution s d.task_id
      { status := some "completed", artifactIds := some d.artifact_ids,
        stdout := some d.stdout_preview }
  else if event = "code.failed" then
    setCodeExecution s d.task_id
      { status := some "failed",
        stderr := some (if d.stderr ≠ "" then d.stderr
          else if d.error ≠ "" then d.error else "") }
  else if event = "code.log" then
    appendTaskLog s d.task_id { level := d.level, message := d.message } now
  else s

/-- The event names for which `createSSEConnection`
(frontend/src/lib/sse.ts) calls `addEventListener` on the `EventSource`,
in source order. -/
def eventTypes : List String :=
  ["snapshot", "task.started", "task.completed", "task.failed",
   "task.retrying", "log.append", "action.completed", "action.failed",
   "action.started", "code.started", "code.completed", "code.failed",
   "code.log", "ping"]

/-- Modelled from the spec: the twelve event kinds named in section 4.1
for the per-action stream. -/
def specEventKinds : List String :=
  ["snapshot", "action.started", "action.completed", "action.failed",
   "action.retrying", "task.started", "task.completed", "task.failed",
   "task.retrying", "task.recovered", "log.append", "ping"]

/-- `status = override?.status || task.status` (task-card.tsx line 76):
JS `||` falls back on an absent or empty override status. -/
def viewStatus (t : Task) (ov : Option TaskPatch) : String :=
  match ov with
  | none => t.status
  | some p =>
    match p.status with
    | none => t.status
    | some st => if st = "" then t.status else st

/-- `outputSummary = override?.output_summary ?? task.output_summary`
(task-card.tsx line 77): `??` falls back on an absent field and on null. -/
def viewOutputSummary (t : Task) (ov : Option TaskPatch) : Option String :=
  match ov with
  | none => t.output_summary
  | some p =>
    match p.output_summary with
    | none => t.output_summary
    | some none => t.output_summary
    | some (some v) => some v

/-- `toggleDep` from add-task-dialog.tsx (identical in `AddTaskDialog` and
`TaskCardEditor`): remove the id if present, append it otherwise. -/
def toggleDep (prev : List String) (taskId : String) : List String :=
  if prev.contains taskId then prev.filter (fun id => id ≠ taskId)
  else prev ++ [taskId]

/-- A concrete store used to instantiate hypothetical theorems. -/
def sampleStore : ActionStore :=
  { currentActionId := "a1",
    taskOverrides := fun _ => none,
    actionStatus := none,
    recoveryAttempt := none,
    taskLogs := fun _ => none,
    codeExecutions := fun _ => none }

/-! ### Helper lemmas about the store operations -/

theorem setTaskOverride_actionStatus (s : ActionStore) (tid : String)
    (p : TaskPatch) : (setTaskOverride s tid p).actionStatus = s.actionStatus := rfl

theorem snapFold_actionStatus (l : List Task) (s : ActionStore) :
    (snapFold s l).actionStatus = s.actionStatus := by
  induction l generalizing s with
  | nil => rfl
  | cons t ts ih => simpa [snapFold, List.foldl_cons] using ih _

theorem snapFold_not_mem (l : List Task) (s : ActionStore) (id : String)
    (h : id ∉ l.map (fun t => t.id)) :
    (snapFold s l).taskOverrides id = s.taskOverrides id := by
  induction l generalizing s with
  | nil => rfl
  | cons t ts ih =>
    simp only [List.map_cons, List.mem_cons, not_or] at h
    have step : (setTaskOverride s t.id
        { status := some t.status, output_summary := some t.output_summary
          }).taskOverrides id = s.taskOverrides id := by
      simp [setTaskOverride, h.1]
    calc (snapFold s (t :: ts)).taskOverrides id
        = (snapFold (setTaskOverride s t.id _) ts).taskOverrides id := rfl
      _ = _ := by rw [ih _ h.2, step]

theorem snapFold_mem (l : List Task) (s : ActionStore)
    (hnodup : (l.map (fun t => t.id)).Nodup) (t : Task) (ht : t ∈ l) :
    (snapFold s l).taskOverrides t.id =
      some { status := some t.status, output_summary := some t.output_summary } := by
  induction l generalizing s with
  | nil => cases ht
  | cons u us ih =>
    simp only [List.map_cons, List.nodup_cons] at hnodup
    rcases List.mem_cons.mp ht with h | h
    · subst h
      have h1 : (snapFold s (t :: us)).taskOverrides t.id =
          (setTaskOverride s t.id
            { status := some t.status,
              output_summary := some t.output_summary }).taskOverrides t.id := by
        exact snapFold_not_mem us _ t.id hnodup.1
      rw [h1]
      simp [setTaskOverride, mergePatch]
    · exact ih _ hnodup.2 h

/-! ### Claims about the SSE layer and the event handler -/

/-- Claim C1: the SSE client registers an event listener for every event
kind the spec names for the per-action stream.  This FAILS: the
registration list of `createSSEConnection` omits `action.retrying` and
`task.recovered`, although the spec names both kinds and the handler switch
has cases written for them, so such events never reach the handler. -/
theorem c1_unregistered_event_kinds :
    "action.retrying" ∈ specEventKinds ∧ "task.recovered" ∈ specEventKinds ∧
    "action.retrying" ∉ eventTypes ∧ "task.recovered" ∉ eventTypes := by
  decide

/-- Claim C2: a `task.retrying` event is supposed to make the client record
the retry attempt.  This FAILS: the handler switch has no case for
`task.retrying`, so such an event leaves the whole store unchanged, for
every payload and store state. -/
theorem c2_task_retrying_leaves_store_unchanged (actionId : String)
    (d : EventData) (now : String) (s : ActionStore) :
    handleEvent actionId "task.retrying" d now s = s := by
  unfold handleEvent
  by_cases hg : s.currentActionId ≠ "" ∧ s.currentActionId ≠ actionId
  · rw [if_pos hg]
  · rw [if_neg hg]
    rfl

/-- Claim C10: an event whose subscription action id differs from a
non-empty `currentActionId` never mutates the store, whatever the event
kind and payload. -/
theorem c10_foreign_action_events_ignored (actionId event : String)
    (d : EventData) (now : String) (s : ActionStore)
    (hne : s.currentActionId ≠ "") (hdiff : s.currentActionId ≠ actionId) :
    handleEvent actionId event d now s = s := by
  unfold handleEvent
  rw [if_pos ⟨hne, hdiff⟩]

/-- Witness for C10 at a concrete store and event. -/
theorem c10_witness :
    handleEvent "b2" "task.started" { task_id := "t1" } "T" sampleStore =
      sampleStore :=
  c10_foreign_action_events_ignored "b2" "task.started" { task_id := "t1" }
    "T" sampleStore (by decide) (by decide)

/-- Claim C8: `appendTaskLog` appends exactly one entry at the end of the
given task's log list and leaves every other task's logs and every other
store field unchanged. -/
theorem c8_appendTaskLog_append_only (s : ActionStore) (taskId : String)
    (log : LogInput) (now : String) :
    (appendTaskLog s taskId log now).taskLogs taskId =
      some (((s.taskLogs taskId).getD []) ++
        [{ level := log.level, message := log.message, timestamp := now }]) ∧
    (∀ other, other ≠ taskId →
      (appendTaskLog s taskId log now).taskLogs other = s.taskLogs other) ∧
    (appendTaskLog s taskId log now).taskOverrides = s.taskOverrides ∧
    (appendTaskLog s taskId log now).actionStatus = s.actionStatus ∧
    (appendTaskLog s taskId log now).recoveryAttempt = s.recoveryAttempt ∧
    (appendTaskLog s taskId log now).codeExecutions = s.codeExecutions ∧
    (appendTaskLog s taskId log now).currentActionId = s.currentActionId := by
  refine ⟨?_, ?_, rfl, rfl, rfl, rfl, rfl⟩
  · simp [appendTaskLog]
  · intro other h
    simp [appendTaskLog, h]

/-- Witness for C8 at a concrete store, task id and entry. -/
theorem c8_witness :
    (appendTaskLog sampleStore "a" { level := "info", message := "m" }
      "T").taskLogs "b" = sampleStore.taskLogs "b" ∧
    (appendTaskLog sampleStore "a" { level := "info", message := "m" }
      "T").taskLogs "a" =
      some [{ level := "info", message := "m", timestamp := "T" }] := by
  have h := c8_appendTaskLog_append_only sampleStore "a"
    { level := "info", message := "m" } "T"
  exact ⟨h.2.1 "b" (by decide), h.1⟩

/-- Claim C9: `toggleDep` negates membership of the toggled id, leaves the
membership of every other id unchanged, and applying it twice restores the
original membership of every id. -/
theorem c9_toggleDep_membership (prev : List String) (taskId : String) :
    (taskId ∈ toggleDep prev taskId ↔ taskId ∉ prev) ∧
    (∀ other, other ≠ taskId →
      (other ∈ toggleDep prev taskId ↔ other ∈ prev)) ∧
    (∀ id, id ∈ toggleDep (toggleDep prev taskId) taskId ↔ id ∈ prev) := by
  have hmem : ∀ (l : List String) (a : String), l.contains a = true ↔ a ∈ l := by
    intro l a
    constructor
    · exact fun h => List.mem_of_elem_eq_true h
    · exact fun h => List.elem_eq_true_of_mem h
  by_cases h : taskId ∈ prev
  · have hc : prev.contains taskId = true := (hmem _ _).mpr h
    have h1 : toggleDep prev taskId = prev.filter (fun id => id ≠ taskId) := by
      unfold toggleDep
      rw [if_pos hc]
    have hnot : taskId ∉ prev.filter (fun id => id ≠ taskId) := by
      simp [List.mem_filter]
    have hc2 : (prev.filter (fun id => id ≠ taskId)).contains taskId = false := by
      cases h' : (prev.filter (fun id => id ≠ taskId)).contains taskId with
      | false => rfl
      | true => exact absurd ((hmem _ _).mp h') hnot
    have h2 : toggleDep (toggleDep prev taskId) taskId =
        prev.filter (fun id => id ≠ taskId) ++ [taskId] := by
      rw [h1]
      unfold toggleDep
      rw [if_neg (by simp [hc2])]
    refine ⟨?_, ?_, ?_⟩
    · rw [h1]; simp [hnot, h]
    · intro other hother
      rw [h1]
      simp [List.mem_filter, hother]
    · intro id
      rw [h2]
      by_cases hid : id = taskId
      · subst hid
        simp [h]
      · simp [List.mem_filter, hid]
  · have hc : prev.contains taskId = false := by
      cases h' : prev.contains taskId with
      | false => rfl
      | true => exact absurd ((hmem _ _).mp h') h
    have h1 : toggleDep prev taskId = prev ++ [taskId] := by
      unfold toggleDep
      rw [if_neg (by simp [hc, h])]
    have hc2 : (prev ++ [taskId]).contains taskId = true :=
      (hmem _ _).mpr (by simp)
    have h2 : toggleDep (toggleDep prev taskId) taskId =
        (prev ++ [taskId]).filter (fun id => id ≠ taskId) := by
      rw [h1]
      unfold toggleDep
      rw [if_pos hc2]
    refine ⟨?_, ?_, ?_⟩
    · rw [h1]; exact ⟨fun _ => h, fun _ => by simp⟩
    · intro other hother
      rw [h1]; simp [hother]
    · intro id
      rw [h2]
      by_cases hid : id = taskId
      · subst hid
        constructor
        · intro hmem2
          have h3 := (List.mem_filter.mp hmem2).2
          simp at h3
        · intro hmem2
          exact absurd hmem2 h
      · simp [List.mem_filter, hid]

/-- Witness for C9 at a concrete selection. -/
theorem c9_witness :
    ("y" ∈ toggleDep ["x", "y"] "y" ↔ "y" ∉ ["x", "y"]) ∧
    ("x" ∈ toggleDep ["x", "y"] "y" ↔ "x" ∈ ["x", "y"]) ∧
    ("y" ∈ toggleDep (toggleDep ["x", "y"] "y") "y" ↔ "y" ∈ ["x", "y"]) := by
  have h := c9_toggleDep_membership ["x", "y"] "y"
  exact ⟨h.1, h.2.1 "x" (by decide), h.2.2 "y"⟩

/-- Claim C3: `task.started` sets the task's overlay status to `"running"`;
`task.completed` sets `"completed"` with the event's `output_summary`;
`task.failed` sets `"failed"` with the event's `error`, and the task card
then renders status failed with the error as its output summary. -/
theorem c3_task_status_events (actionId : String) (d : EventData)
    (now : String) (s : ActionStore)
    (hg : s.currentActionId = "" ∨ s.currentActionId = actionId) :
    (∃ p, (handleEvent actionId "task.started" d now s).taskOverrides d.task_id
        = some p ∧ p.status = some "running") ∧
    (∃ p, (handleEvent actionId "task.completed" d now s).taskOverrides d.task_id
        = some p ∧ p.status = some "completed" ∧
        p.output_summary = some (some d.output_summary)) ∧
    (∃ p, (handleEvent actionId "task.failed" d now s).taskOverrides d.task_id
        = some p ∧ p.status = some "failed" ∧
        p.output_summary = some (some d.error)) ∧
    (∀ t : Task, t.id = d.task_id →
      viewStatus t
        ((handleEvent actionId "task.failed" d now s).taskOverrides t.id)
        = "failed" ∧
      viewOutputSummary t
        ((handleEvent actionId "task.failed" d now s).taskOverrides t.id)
        = some d.error) := by
  have hguard : ¬(s.currentActionId ≠ "" ∧ s.currentActionId ≠ actionId) := by
    rcases hg with h | h
    · exact fun hcon => hcon.1 h
    · exact fun hcon => hcon.2 h
  have e1 : handleEvent actionId "task.started" d now s =
      setTaskOverride s d.task_id { status := some "running" } := by
    unfold handleEvent; rw [if_neg hguard]; rfl
  have e2 : handleEvent actionId "task.completed" d now s =
      setTaskOverride s d.task_id
        { status := some "completed",
          output_summary := some (some d.output_summary) } := by
    unfold handleEvent; rw [if_neg hguard]; rfl
  have e3 : handleEvent actionId "task.failed" d now s =
      setTaskOverride s d.task_id
        { status := some "failed", output_summary := some (some d.error) } := by
    unfold handleEvent; rw [if_neg hguard]; rfl
  refine ⟨⟨mergePatch ((s.taskOverrides d.task_id).getD {})
      { status := some "running" }, ?_, rfl⟩,
    ⟨mergePatch ((s.taskOverrides d.task_id).getD {})
      { status := some "completed",
        output_summary := some (some d.output_summary) }, ?_, rfl, rfl⟩,
    ⟨mergePatch ((s.taskOverrides d.task_id).getD {})
      { status := some "failed",
        output_summary := some (some d.error) }, ?_, rfl, rfl⟩, ?_⟩
  · rw [e1]; simp [setTaskOverride]
  · rw [e2]; simp [setTaskOverride]
  · rw [e3]; simp [setTaskOverride]
  intro t ht
  have e4 : (handleEvent actionId "task.failed" d now s).taskOverrides t.id =
      some (mergePatch ((s.taskOverrides d.task_id).getD {})
        { status := some "failed", output_summary := some (some d.error) }) := by
    rw [e3, ht]
    simp [setTaskOverride]
  rw [e4]
  exact ⟨rfl, rfl⟩

/-- A concrete payload and failed-task view used to instantiate C3. -/
def dFail : EventData := { task_id := "t1", error := "boom" }

/-- A concrete task used to instantiate C3's view conclusions. -/
def tFail : Task :=
  { id := "t1", action_id := "a1", prompt := "p", status := "pending",
    agent_type := "mock", model := none, dependencies := [],
    output_summary := none, created_at := "c", updated_at := "u" }

/-- Witness for C3 at a concrete store, payload and task. -/
theorem c3_witness :
    viewStatus tFail
      ((handleEvent "a1" "task.failed" dFail "T" sampleStore).taskOverrides
        tFail.id) = "failed" ∧
    viewOutputSummary tFail
      ((handleEvent "a1" "task.failed" dFail "T" sampleStore).taskOverrides
        tFail.id) = some "boom" :=
  (c3_task_status_events "a1" dFail "T" sampleStore (Or.inr rfl)).2.2.2
    tFail rfl

/-- Claim C4: a snapshot event records, for every task in the payload, that
task's status and output summary in the overlay, leaves every other task's
overlay entry untouched, and sets the overlay action status when the
payload carries one (action statuses are the four non-empty strings of the
data model, so the handler's truthiness test always passes on them). -/
theorem c4_snapshot_overlay (actionId : String) (d : EventData)
    (now : String) (s : ActionStore)
    (hg : s.currentActionId = "" ∨ s.currentActionId = actionId)
    (hnodup : (d.tasks.map (fun t => t.id)).Nodup) :
    (∀ t ∈ d.tasks,
      (handleEvent actionId "snapshot" d now s).taskOverrides t.id =
        some { status := some t.status,
               output_summary := some t.output_summary }) ∧
    (∀ id, id ∉ d.tasks.map (fun t => t.id) →
      (handleEvent actionId "snapshot" d now s).taskOverrides id =
        s.taskOverrides id) ∧
    (∀ st, d.status = some st → st ≠ "" →
      (handleEvent actionId "snapshot" d now s).actionStatus = some st) ∧
    (d.status = none →
      (handleEvent actionId "snapshot" d now s).actionStatus =
        s.actionStatus) := by
  have hguard : ¬(s.currentActionId ≠ "" ∧ s.currentActionId ≠ actionId) := by
    rcases hg with h | h
    · exact fun hcon => hcon.1 h
    · exact fun hcon => hcon.2 h
  have e : handleEvent actionId "snapshot" d now s =
      (match d.status with
       | none => snapFold s d.tasks
       | some st => if st = "" then snapFold s d.tasks
           else setActionStatus (snapFold s d.tasks) st) := by
    unfold handleEvent; rw [if_neg hguard]; rfl
  have hov : (handleEvent actionId "snapshot" d now s).taskOverrides =
      (snapFold s d.tasks).taskOverrides := by
    rw [e]
    cases d.status with
    | none => rfl
    | some st =>
      dsimp only
      by_cases hst : st = ""
      · rw [if_pos hst]
      · rw [if_neg hst]; rfl
  refine ⟨?_, ?_, ?_, ?_⟩
  · intro t ht
    rw [hov]
    exact snapFold_mem d.tasks s hnodup t ht
  · intro id hid
    rw [hov]
    exact snapFold_not_mem d.tasks s id hid
  · intro st hst hne
    rw [e, hst]
    dsimp only
    rw [if_neg hne]
    rfl
  · intro hnone
    rw [e, hnone]
    exact snapFold_actionStatus d.tasks s
/-- A concrete task used to instantiate C4. -/
def sampleTask : Task :=
  { id := "t1", action_id := "a1", prompt := "p", status := "completed",
    agent_type := "mock", model := none, dependencies := [],
    output_summary := some "out", created_at := "c", updated_at := "u" }

/-- A concrete snapshot payload used to instantiate C4. -/
def dSnap : EventData := { tasks := [sampleTask], status := some "running" }

/-- Witness for C4 at a concrete store and snapshot payload. -/
theorem c4_witness :
    (handleEvent "a1" "snapshot" dSnap "T" sampleStore).taskOverrides "t1" =
      some { status := some "completed", output_summary := some (some "out") } ∧
    (handleEvent "a1" "snapshot" dSnap "T" sampleStore).taskOverrides "zz" =
      sampleStore.taskOverrides "zz" ∧
    (handleEvent "a1" "snapshot" dSnap "T" sampleStore).actionStatus =
      some "running" := by
  have h := c4_snapshot_overlay "a1" dSnap "T" sampleStore (Or.inr rfl)
    (by decide)
  exact ⟨h.1 sampleTask (by simp [dSnap]), h.2.1 "zz" (by decide),
    h.2.2.1 "running" rfl (by decide)⟩

/-! ### The DAG layout helpers `computeTiers` and `buildIndexMap`
(task-board component).  The memoised JS recursion `getTier` is a pure
function of the task list, so it is embedded as the equivalent un-memoised
recursion; `fuel` bounds the recursion depth (the JS call stack), so a
cyclic input, which overflows the JS stack, is modelled as `none`.  The
`Math.max` of an empty argument list is `-Infinity`, which later makes
`tiers[tier].push` throw; that path is modelled as `none` as well. -/

/-- Lookup in `taskMap = new Map(tasks.map(t => [t.id, t]))`: later entries
overwrite earlier ones, so the last task with the id wins. -/
def taskLookup (tasks : List Task) (id : String) : Option Task :=
  (tasks.filter (fun t => t.id = id)).getLast?

mutual

/-- `getTier(id)` from `computeTiers`. -/
def getTier (tasks : List Task) : Nat → String → Option Nat
  | 0, _ => none
  | fuel+1, id =>
    match taskLookup tasks id with
    | none => some 0
    | some t =>
      if t.dependencies.isEmpty then some 0
      else
        match t.dependencies.filter (fun dd => (taskLookup tasks dd).isSome) with
        | [] => none
        | d :: ds =>
          match getTierList tasks fuel (d :: ds) with
          | none => none
          | some vs => some (vs.foldl Nat.max 0 + 1)
termination_by fuel _ => (fuel, 0)

/-- The sequence of recursive `getTier` calls over a dependency list. -/
def getTierList (tasks : List Task) : Nat → List String → Option (List Nat)
  | _, [] => some []
  | fuel, d :: ds =>
    match getTier tasks fuel d, getTierList tasks fuel ds with
    | some v, some vs => some (v :: vs)
    | _, _ => none
termination_by fuel l => (fuel, l.length + 1)

end

/-- `tiers[tier].push(task)` preceded by the
`while (tiers.length <= tier) tiers.push([])` padding loop. -/
def pushTier (tiers : List (List Task)) (k : Nat) (t : Task) :
    List (List Task) :=
  let padded := tiers ++ List.replicate (k + 1 - tiers.length) []
  padded.set k (padded.getD k [] ++ [t])

/-- The second loop of `computeTiers`: place every task (in input order)
into the group of its tier. -/
def groupTiers (pairs : List (Task × Nat)) : List (List Task) :=
  pairs.foldl (fun tiers p => pushTier tiers p.2 p.1) []

/-- `computeTiers`: compute every task's tier, then group.  The fuel
`tasks.length` bounds the recursion depth; an acyclic dependency-closed
graph on n tasks has dependency chains of length at most n, so the fuel
suffices there (theorem for C6). -/
def computeTiers (tasks : List Task) : Option (List (List Task)) :=
  match getTierList tasks tasks.length (tasks.map (fun t => t.id)) with
  | none => none
  | some vs => some (groupTiers (tasks.zip vs))

/-- The tier value of one id, as computed inside `computeTiers`. -/
def tierVal (tasks : List Task) (id : String) : Nat :=
  (getTier tasks tasks.length id).getD 0

/-- The `(task.id, idx++)` entries written by `buildIndexMap`, with `off`
the running counter. -/
def indexEntries (off : Nat) : List Task → List (String × Nat)
  | [] => []
  | t :: ts => (t.id, off) :: indexEntries (off + 1) ts

/-- `buildIndexMap`: the Map from task id to its global index over the
concatenated tiers, represented as the list of bindings in insertion
order. -/
def buildIndexMap (tiers : List (List Task)) : List (String × Nat) :=
  indexEntries 0 tiers.flatten

/-- `Map.get`: `Map.set` overwrites, so the last binding for a key wins. -/
def indexLookup (m : List (String × Nat)) (id : String) : Option Nat :=
  ((m.filter (fun q => q.1 = id)).getLast?).map (fun q => q.2)

/-- The dependency graph of a task list, as (id, dependency ids) nodes. -/
def taskNodes (tasks : List Task) : List (String × List String) :=
  tasks.map (fun t => (t.id, t.dependencies))

/-- Acyclicity in the form the spec states it ("there is a topological
order"): a rank function places every node at a position below the number
of nodes, with every dependency ranked strictly below its dependent. -/
def AcyclicRank (nodes : List (String × List String)) : Prop :=
  ∃ r : String → Nat, ∀ p ∈ nodes, r p.1 < nodes.length ∧
    ∀ d ∈ p.2, r d < r p.1

/-- Dependency-closedness: every dependency id is the id of a task of the
same list (spec section 3 invariant). -/
def DepClosed (tasks : List Task) : Prop :=
  ∀ t ∈ tasks, ∀ d ∈ t.dependencies, d ∈ tasks.map (fun u => u.id)

/-! ### Lemmas about `taskLookup` -/

theorem taskLookup_eq_some (tasks : List Task) (id : String) (t : Task)
    (h : taskLookup tasks id = some t) : t ∈ tasks ∧ t.id = id := by
  have hm := List.mem_of_mem_getLast? h
  have := List.mem_filter.mp hm
  refine ⟨this.1, ?_⟩
  simpa using this.2

theorem taskLookup_isSome_of_mem (tasks : List Task) (id : String)
    (h : id ∈ tasks.map (fun u => u.id)) : (taskLookup tasks id).isSome := by
  obtain ⟨t, ht, hid⟩ := List.mem_map.mp h
  have hne : tasks.filter (fun u => u.id = id) ≠ [] := by
    apply List.ne_nil_of_mem (a := t)
    exact List.mem_filter.mpr ⟨ht, by simp [hid]⟩
  unfold taskLookup
  exact List.getLast?_isSome.mpr hne

theorem filter_id_eq_nil (tasks : List Task) (id : String)
    (h : id ∉ tasks.map (fun u => u.id)) :
    tasks.filter (fun u => u.id = id) = [] := by
  induction tasks with
  | nil => rfl
  | cons t ts ih =>
    simp only [List.map_cons, List.mem_cons, not_or] at h
    have h1 : ¬(t.id = id) := fun hc => h.1 hc.symm
    simp only [List.filter_cons]
    rw [if_neg (by simpa using h1)]
    exact ih h.2

theorem filter_id_eq_single (tasks : List Task)
    (hnodup : (tasks.map (fun u => u.id)).Nodup) (t : Task) (ht : t ∈ tasks) :
    tasks.filter (fun u => u.id = t.id) = [t] := by
  induction tasks with
  | nil => cases ht
  | cons u us ih =>
    simp only [List.map_cons, List.nodup_cons] at hnodup
    rcases List.mem_cons.mp ht with h | h
    · subst h
      simp only [List.filter_cons]
      rw [if_pos (by simp)]
      rw [filter_id_eq_nil us t.id hnodup.1]
    · have hne : ¬(u.id = t.id) := by
        intro hc
        exact hnodup.1 (hc ▸ List.mem_map_of_mem (fun v => v.id) h)
      simp only [List.filter_cons]
      rw [if_neg (by simpa using hne)]
      exact ih hnodup.2 h

theorem taskLookup_self (tasks : List Task)
    (hnodup : (tasks.map (fun u => u.id)).Nodup) (t : Task) (ht : t ∈ tasks) :
    taskLookup tasks t.id = some t := by
  unfold taskLookup
  rw [filter_id_eq_single tasks hnodup t ht]
  rfl

/-! ### Lemmas about `getTierList` and folded maxima -/

theorem getTierList_congr (tasks : List Task) (f g : Nat) (ds : List String)
    (h : ∀ d ∈ ds, getTier tasks f d = getTier tasks g d) :
    getTierList tasks f ds = getTierList tasks g ds := by
  induction ds with
  | nil => simp [getTierList]
  | cons d dt ih =>
    rw [getTierList, getTierList]
    rw [h d (List.mem_cons_self d dt), ih (fun x hx => h x (List.mem_cons_of_mem d hx))]

theorem getTierList_eq_map (tasks : List Task) (f : Nat) (ds : List String)
    (v : String → Nat) (h : ∀ d ∈ ds, getTier tasks f d = some (v d)) :
    getTierList tasks f ds = some (ds.map v) := by
  induction ds with
  | nil => simp [getTierList]
  | cons d dt ih =>
    rw [getTierList]
    rw [h d (List.mem_cons_self d dt), ih (fun x hx => h x (List.mem_cons_of_mem d hx))]
    simp

theorem foldl_max_le_base (l : List Nat) (a : Nat) : a ≤ l.foldl Nat.max a := by
  induction l generalizing a with
  | nil => exact Nat.le_refl a
  | cons x xs ih =>
    exact Nat.le_trans (Nat.le_max_left a x) (ih (Nat.max a x))

theorem le_foldl_max (l : List Nat) : ∀ (a x : Nat), x ∈ l →
    x ≤ l.foldl Nat.max a := by
  induction l with
  | nil => intro a x hx; cases hx
  | cons y ys ih =>
    intro a x hx
    rcases List.mem_cons.mp hx with h | h
    · subst h
      exact Nat.le_trans (Nat.le_max_right a x) (foldl_max_le_base ys (Nat.max a x))
    · exact ih (Nat.max a y) x h

/-! ### Rank functions and fuel sufficiency for `getTier` -/

theorem acyclicRank_tasks (tasks : List Task)
    (h : AcyclicRank (taskNodes tasks)) :
    ∃ r : String → Nat, ∀ t ∈ tasks, r t.id < tasks.length ∧
      ∀ d ∈ t.dependencies, r d < r t.id := by
  obtain ⟨r, hr⟩ := h
  refine ⟨r, fun t ht => ?_⟩
  have := hr (t.id, t.dependencies)
    (List.mem_map_of_mem (fun u => (u.id, u.dependencies)) ht)
  simpa [taskNodes] using this

theorem getTier_fuel_eq (tasks : List Task) (hclosed : DepClosed tasks)
    (r : String → Nat)
    (hr : ∀ t ∈ tasks, ∀ d ∈ t.dependencies, r d < r t.id) :
    ∀ k id, id ∈ tasks.map (fun u => u.id) → r id ≤ k →
      ∀ f g, r id < f → r id < g →
      getTier tasks f id = getTier tasks g id ∧
        (getTier tasks f id).isSome := by
  intro k
  induction k using Nat.strong_induction_on with
  | _ k ih =>
    intro id hid hrk f g hf hg
    obtain ⟨f', rfl⟩ : ∃ f', f = f' + 1 := ⟨f - 1, by omega⟩
    obtain ⟨g', rfl⟩ : ∃ g', g = g' + 1 := ⟨g - 1, by omega⟩
    have hsome := taskLookup_isSome_of_mem tasks id hid
    obtain ⟨t, hlk⟩ := Option.isSome_iff_exists.mp hsome
    obtain ⟨htm, htid⟩ := taskLookup_eq_some tasks id t hlk
    by_cases hdep : t.dependencies.isEmpty = true
    · have e : ∀ m : Nat, getTier tasks (m + 1) id = some 0 := by
        intro m
        simp only [getTier, hlk]
        rw [if_pos hdep]
      rw [e f', e g']
      exact ⟨rfl, rfl⟩
    · have hdeps_ne : t.dependencies ≠ [] := fun hnil => hdep (by simp [hnil])
      have hfil : t.dependencies.filter
          (fun dd => (taskLookup tasks dd).isSome) = t.dependencies :=
        List.filter_eq_self.mpr (fun d hd =>
          taskLookup_isSome_of_mem tasks d (hclosed t htm d hd))
      have hpt : ∀ d ∈ t.dependencies,
          getTier tasks f' d = getTier tasks g' d ∧
            (getTier tasks f' d).isSome := by
        intro d hd
        have hdr : r d < r id := by
          have h5 := hr t htm d hd
          rwa [htid] at h5
        exact ih (r d) (by omega) d (hclosed t htm d hd) (Nat.le_refl _) f' g'
          (by omega) (by omega)
      have hvals : ∀ d ∈ t.dependencies,
          getTier tasks f' d = some ((getTier tasks f' d).getD 0) := by
        intro d hd
        obtain ⟨-, hs⟩ := hpt d hd
        obtain ⟨v, hv⟩ := Option.isSome_iff_exists.mp hs
        rw [hv]
        rfl
      have hLf : getTierList tasks f' t.dependencies =
          some (t.dependencies.map (fun d => (getTier tasks f' d).getD 0)) :=
        getTierList_eq_map tasks f' t.dependencies _ hvals
      have hLg : getTierList tasks g' t.dependencies =
          some (t.dependencies.map (fun d => (getTier tasks f' d).getD 0)) := by
        rw [← getTierList_congr tasks f' g' t.dependencies
          (fun d hd => (hpt d hd).1)]
        exact hLf
      obtain ⟨d0, ds0, hcons⟩ : ∃ d0 ds0, t.dependencies = d0 :: ds0 := by
        cases hd : t.dependencies
        · exact absurd hd hdeps_ne
        · exact ⟨_, _, rfl⟩
      have unfoldAt : ∀ m : Nat, getTier tasks (m + 1) id =
          match getTierList tasks m (d0 :: ds0) with
          | none => none
          | some vs => some (vs.foldl Nat.max 0 + 1) := by
        intro m
        simp only [getTier, hlk]
        rw [if_neg hdep, hfil, hcons]
      rw [hcons] at hLf hLg
      rw [unfoldAt f', unfoldAt g', hLf, hLg]
      exact ⟨rfl, rfl⟩

theorem getTier_spec (tasks : List Task)
    (hnodup : (tasks.map (fun u => u.id)).Nodup) (hclosed : DepClosed tasks)
    (r : String → Nat) (hlen : ∀ t ∈ tasks, r t.id < tasks.length)
    (hr : ∀ t ∈ tasks, ∀ d ∈ t.dependencies, r d < r t.id)
    (t : Task) (ht : t ∈ tasks) :
    getTier tasks tasks.length t.id = some (tierVal tasks t.id) ∧
    (t.dependencies = [] → tierVal tasks t.id = 0) ∧
    (t.dependencies ≠ [] → tierVal tasks t.id =
      (t.dependencies.map (tierVal tasks)).foldl Nat.max 0 + 1) := by
  have hid : t.id ∈ tasks.map (fun u => u.id) :=
    List.mem_map_of_mem (fun u => u.id) ht
  have hsome : (getTier tasks tasks.length t.id).isSome :=
    (getTier_fuel_eq tasks hclosed r hr (r t.id) t.id hid (Nat.le_refl _)
      tasks.length tasks.length (hlen t ht) (hlen t ht)).2
  have ha : getTier tasks tasks.length t.id = some (tierVal tasks t.id) := by
    obtain ⟨v, hv⟩ := Option.isSome_iff_exists.mp hsome
    rw [hv]
    unfold tierVal
    rw [hv]
    rfl
  obtain ⟨n', hn⟩ : ∃ n', tasks.length = n' + 1 :=
    ⟨tasks.length - 1, by
      have := List.length_pos_of_mem ht
      omega⟩
  refine ⟨ha, ?_, ?_⟩
  · intro hnil
    unfold tierVal
    rw [hn]
    simp only [getTier, taskLookup_self tasks hnodup t ht]
    rw [if_pos (by simp [hnil])]
    rfl
  · intro hne
    have hfil : t.dependencies.filter
        (fun dd => (taskLookup tasks dd).isSome) = t.dependencies :=
      List.filter_eq_self.mpr (fun d hd =>
        taskLookup_isSome_of_mem tasks d (hclosed t ht d hd))
    have hvals : ∀ d ∈ t.dependencies,
        getTier tasks n' d = some (tierVal tasks d) := by
      intro d hd
      have hdmem : d ∈ tasks.map (fun u => u.id) := hclosed t ht d hd
      have hdr : r d < r t.id := hr t ht d hd
      have hlt : r d < n' := by
        have := hlen t ht
        omega
      have heq := getTier_fuel_eq tasks hclosed r hr (r d) d hdmem
        (Nat.le_refl _) n' tasks.length hlt (by omega)
      obtain ⟨v, hv⟩ := Option.isSome_iff_exists.mp heq.2
      have hv2 : getTier tasks tasks.length d = some v := by
        rw [← heq.1]; exact hv
      rw [hv]
      unfold tierVal
      rw [hv2]
      rfl
    obtain ⟨d0, ds0, hcons⟩ : ∃ d0 ds0, t.dependencies = d0 :: ds0 := by
      cases hd : t.dependencies
      · exact absurd hd hne
      · exact ⟨_, _, rfl⟩
    have hL : getTierList tasks n' t.dependencies =
        some (t.dependencies.map (tierVal tasks)) :=
      getTierList_eq_map tasks n' t.dependencies _ hvals
    have hmain : getTier tasks tasks.length t.id =
        some ((t.dependencies.map (tierVal tasks)).foldl Nat.max 0 + 1) := by
      rw [hn]
      simp only [getTier, taskLookup_self tasks hnodup t ht]
      rw [if_neg (by simp [hcons]), hfil, hcons]
      dsimp only
      rw [hcons] at hL
      rw [hL]
    unfold tierVal
    rw [hmain]
    rfl

/-! ### Lemmas about `pushTier` and `groupTiers` -/

theorem getD_replicate_nil (m k : Nat) :
    (List.replicate m ([] : List Task)).getD k [] = [] := by
  induction m generalizing k with
  | zero => cases k <;> rfl
  | succ m ih =>
    rw [List.replicate_succ]
    cases k with
    | zero => rfl
    | succ k => rw [List.getD_cons_succ]; exact ih k

theorem set_replicate_last (j : Nat) (t : Task) :
    (List.replicate (j + 1) ([] : List Task)).set j [t] =
      List.replicate j [] ++ [[t]] := by
  induction j with
  | zero => rfl
  | succ j ih =>
    rw [List.replicate_succ, List.set_cons_succ, ih]
    rw [List.replicate_succ, List.cons_append]

theorem pushTier_nil (j : Nat) (t : Task) :
    pushTier [] j t = List.replicate j [] ++ [[t]] := by
  simp only [pushTier, List.nil_append, List.length_nil, Nat.sub_zero,
    getD_replicate_nil]
  exact set_replicate_last j t

theorem pushTier_cons_zero (g : List Task) (gs : List (List Task)) (t : Task) :
    pushTier (g :: gs) 0 t = (g ++ [t]) :: gs := by
  have h1 : 0 + 1 - (g :: gs).length = 0 := by
    simp [List.length_cons]
  simp only [pushTier, h1, List.replicate_zero, List.append_nil]
  rw [List.getD_cons_zero, List.set_cons_zero]

theorem pushTier_cons_succ (g : List Task) (gs : List (List Task)) (j : Nat)
    (t : Task) :
    pushTier (g :: gs) (j + 1) t = g :: pushTier gs j t := by
  have h1 : j + 1 + 1 - (g :: gs).length = j + 1 - gs.length := by
    simp only [List.length_cons]
    omega
  simp only [pushTier, h1, List.cons_append]
  rw [List.getD_cons_succ, List.set_cons_succ]

theorem flatten_replicate_nil (m : Nat) :
    (List.replicate m ([] : List Task)).flatten = [] := by
  induction m with
  | zero => rfl
  | succ m ih => rw [List.replicate_succ, List.flatten_cons, ih]; rfl

theorem flatten_pushTier_perm (tiers : List (List Task)) :
    ∀ (j : Nat) (t : Task),
    (pushTier tiers j t).flatten.Perm (tiers.flatten ++ [t]) := by
  induction tiers with
  | nil =>
    intro j t
    rw [pushTier_nil, List.flatten_append, flatten_replicate_nil,
      List.nil_append]
    simp
  | cons g gs ih =>
    intro j t
    cases j with
    | zero =>
      rw [pushTier_cons_zero, List.flatten_cons, List.flatten_cons]
      rw [List.append_assoc, List.append_assoc]
      exact (List.perm_append_left_iff g).mpr List.perm_append_comm
    | succ j =>
      rw [pushTier_cons_succ, List.flatten_cons, List.flatten_cons,
        List.append_assoc]
      exact (List.perm_append_left_iff g).mpr (ih j t)

theorem getD_rep_append : ∀ (j k : Nat) (t : Task),
    (List.replicate j ([] : List Task) ++ [[t]]).getD k [] =
      if k = j then [t] else [] := by
  intro j
  induction j with
  | zero =>
    intro k t
    cases k with
    | zero => rfl
    | succ k => simp [List.getD]
  | succ j ih =>
    intro k t
    rw [List.replicate_succ, List.cons_append]
    cases k with
    | zero => simp
    | succ k =>
      rw [List.getD_cons_succ, ih k t]
      by_cases h : k = j
      · rw [if_pos h, if_pos (by omega)]
      · rw [if_neg h, if_neg (by omega)]

theorem getD_pushTier (tiers : List (List Task)) :
    ∀ (j k : Nat) (t : Task),
    (pushTier tiers j t).getD k [] =
      if k = j then tiers.getD k [] ++ [t] else tiers.getD k [] := by
  induction tiers with
  | nil =>
    intro j k t
    rw [pushTier_nil, getD_rep_append]
    by_cases h : k = j
    · rw [if_pos h, if_pos h]
      simp [List.getD]
    · rw [if_neg h, if_neg h]
      simp [List.getD]
  | cons g gs ih =>
    intro j k t
    cases j with
    | zero =>
      rw [pushTier_cons_zero]
      cases k with
      | zero => simp
      | succ k => simp
    | succ j =>
      rw [pushTier_cons_succ]
      cases k with
      | zero => simp
      | succ k =>
        rw [List.getD_cons_succ, List.getD_cons_succ, ih j k t]
        by_cases h : k = j
        · rw [if_pos h, if_pos (by omega)]
        · rw [if_neg h, if_neg (by omega)]

theorem getD_groupTiers_fold : ∀ (pairs : List (Task × Nat))
    (acc : List (List Task)) (k : Nat),
    (pairs.foldl (fun tiers p => pushTier tiers p.2 p.1) acc).getD k [] =
      acc.getD k [] ++ (pairs.filter (fun p => p.2 = k)).map (fun p => p.1) := by
  intro pairs
  induction pairs with
  | nil => intro acc k; simp
  | cons p ps ih =>
    intro acc k
    rw [List.foldl_cons, ih, getD_pushTier, List.filter_cons]
    by_cases h : p.2 = k
    · rw [if_pos h.symm, if_pos (by simp [h])]
      simp [List.append_assoc]
    · rw [if_neg (fun hc => h hc.symm), if_neg (by simp [h])]

theorem getD_groupTiers (pairs : List (Task × Nat)) (k : Nat) :
    (groupTiers pairs).getD k [] =
      (pairs.filter (fun p => p.2 = k)).map (fun p => p.1) := by
  unfold groupTiers
  rw [getD_groupTiers_fold]
  simp [List.getD]

theorem flatten_groupTiers_fold_perm : ∀ (pairs : List (Task × Nat))
    (acc : List (List Task)),
    (pairs.foldl (fun tiers p => pushTier tiers p.2 p.1) acc).flatten.Perm
      (acc.flatten ++ pairs.map (fun p => p.1)) := by
  intro pairs
  induction pairs with
  | nil => intro acc; simp
  | cons p ps ih =>
    intro acc
    rw [List.foldl_cons]
    refine (ih (pushTier acc p.2 p.1)).trans ?_
    refine ((flatten_pushTier_perm acc p.2 p.1).append_right
      (ps.map fun q => q.1)).trans ?_
    rw [List.append_assoc, List.singleton_append, List.map_cons]

theorem flatten_groupTiers_perm (pairs : List (Task × Nat)) :
    (groupTiers pairs).flatten.Perm (pairs.map (fun p => p.1)) := by
  have h := flatten_groupTiers_fold_perm pairs []
  simpa using h

theorem zip_map_self (l : List Task) (g : Task → Nat) :
    l.zip (l.map g) = l.map (fun t => (t, g t)) := by
  induction l with
  | nil => rfl
  | cons t ts ih => simp [ih]

theorem computeTiers_eq (tasks : List Task)
    (hnodup : (tasks.map (fun u => u.id)).Nodup) (hclosed : DepClosed tasks)
    (r : String → Nat) (hlen : ∀ t ∈ tasks, r t.id < tasks.length)
    (hr : ∀ t ∈ tasks, ∀ d ∈ t.dependencies, r d < r t.id) :
    computeTiers tasks =
      some (groupTiers (tasks.map (fun t => (t, tierVal tasks t.id)))) := by
  have hvals : ∀ id ∈ tasks.map (fun u => u.id),
      getTier tasks tasks.length id = some (tierVal tasks id) := by
    intro id hid
    obtain ⟨t, ht, rfl⟩ := List.mem_map.mp hid
    exact (getTier_spec tasks hnodup hclosed r hlen hr t ht).1
  have hL := getTierList_eq_map tasks tasks.length
    (tasks.map (fun u => u.id)) (tierVal tasks) hvals
  unfold computeTiers
  rw [hL]
  dsimp only
  have hz : tasks.zip ((tasks.map (fun u => u.id)).map (tierVal tasks)) =
      tasks.map (fun t => (t, tierVal tasks t.id)) := by
    rw [List.map_map]
    exact zip_map_self tasks (fun t => tierVal tasks t.id)
  rw [hz]

/-! ### Lemmas about `indexEntries` and `indexLookup` -/

theorem indexEntries_append (l1 l2 : List Task) : ∀ off : Nat,
    indexEntries off (l1 ++ l2) =
      indexEntries off l1 ++ indexEntries (off + l1.length) l2 := by
  induction l1 with
  | nil => intro off; simp [indexEntries]
  | cons t ts ih =>
    intro off
    rw [List.cons_append]
    simp only [indexEntries]
    rw [ih (off + 1)]
    have h2 : off + 1 + ts.length = off + (t :: ts).length := by
      simp only [List.length_cons]
      omega
    rw [h2, List.cons_append]

theorem indexEntries_filter_nil (l : List Task) (id : String)
    (h : id ∉ l.map (fun u => u.id)) : ∀ off : Nat,
    (indexEntries off l).filter (fun q => q.1 = id) = [] := by
  induction l with
  | nil => intro off; rfl
  | cons t ts ih =>
    intro off
    simp only [List.map_cons, List.mem_cons, not_or] at h
    simp only [indexEntries, List.filter_cons]
    rw [if_neg (by simp only [decide_eq_true_eq]; exact fun hc => h.1 hc.symm)]
    exact ih h.2 (off + 1)

theorem indexLookup_entries_nil (l : List Task) (id : String)
    (h : id ∉ l.map (fun u => u.id)) (off : Nat) :
    indexLookup (indexEntries off l) id = none := by
  unfold indexLookup
  rw [indexEntries_filter_nil l id h off]
  rfl

theorem indexLookup_entries_some (l : List Task) : ∀ (id : String) (off : Nat),
    id ∈ l.map (fun u => u.id) →
    ∃ i, indexLookup (indexEntries off l) id = some i ∧ off ≤ i ∧
      i < off + l.length := by
  induction l with
  | nil =>
    intro id off h
    cases h
  | cons t ts ih =>
    intro id off h
    by_cases hts : id ∈ ts.map (fun u => u.id)
    · obtain ⟨i, hi, h1, h2⟩ := ih id (off + 1) hts
      refine ⟨i, ?_, by omega, by simp only [List.length_cons]; omega⟩
      unfold indexLookup at hi ⊢
      have htail_ne : (indexEntries (off + 1) ts).filter
          (fun q => q.1 = id) ≠ [] := by
        intro hc
        rw [hc] at hi
        simp at hi
      simp only [indexEntries, List.filter_cons]
      by_cases hh : t.id = id
      · rw [if_pos (by simp [hh])]
        rw [← List.singleton_append,
          List.getLast?_append_of_ne_nil _ htail_ne]
        exact hi
      · rw [if_neg (by simp [hh])]
        exact hi
    · have hhead : t.id = id := by
        simp only [List.map_cons, List.mem_cons] at h
        rcases h with h1 | h1
        · exact h1.symm
        · exact absurd h1 hts
      refine ⟨off, ?_, Nat.le_refl off, by simp only [List.length_cons]; omega⟩
      unfold indexLookup
      simp only [indexEntries, List.filter_cons]
      rw [if_pos (by simp [hhead])]
      rw [indexEntries_filter_nil ts id hts (off + 1)]
      rfl

theorem indexLookup_append_left (l1 l2 : List Task) (id : String)
    (h : id ∉ l2.map (fun u => u.id)) :
    indexLookup (indexEntries 0 (l1 ++ l2)) id =
      indexLookup (indexEntries 0 l1) id := by
  rw [indexEntries_append]
  unfold indexLookup
  rw [List.filter_append, indexEntries_filter_nil l2 id h, List.append_nil]

theorem indexLookup_append_right (l1 l2 : List Task) (id : String)
    (h : id ∉ l1.map (fun u => u.id)) :
    indexLookup (indexEntries 0 (l1 ++ l2)) id =
      indexLookup (indexEntries l1.length l2) id := by
  rw [indexEntries_append]
  unfold indexLookup
  rw [List.filter_append, indexEntries_filter_nil l1 id h, List.nil_append,
    Nat.zero_add]

theorem getD_out_of_range (l : List (List Task)) : ∀ n : Nat,
    l.length ≤ n → l.getD n [] = [] := by
  induction l with
  | nil => intro n _; cases n <;> rfl
  | cons g gs ih =>
    intro n h
    cases n with
    | zero => simp at h
    | succ n =>
      rw [List.getD_cons_succ]
      exact ih n (by simpa using h)

theorem index_order (tiers : List (List Task))
    (hnd : (tiers.flatten.map (fun u => u.id)).Nodup)
    (a b : Nat) (hab : a < b) (d t : Task)
    (hd : d ∈ tiers.getD a []) (ht : t ∈ tiers.getD b []) :
    ∃ i j, indexLookup (buildIndexMap tiers) d.id = some i ∧
      indexLookup (buildIndexMap tiers) t.id = some j ∧ i < j := by
  have hb : b < tiers.length := by
    by_contra hc
    push_neg at hc
    rw [getD_out_of_range tiers b hc] at ht
    cases ht
  have ha : a < tiers.length := by omega
  have hdA : d ∈ (tiers.take b).flatten := by
    apply List.mem_flatten.mpr
    refine ⟨tiers.getD a [], ?_, hd⟩
    rw [List.getD_eq_getElem tiers [] ha]
    have hlt : a < (tiers.take b).length := by
      simp only [List.length_take]
      omega
    have h2 : (tiers.take b)[a] = tiers[a] := by
      rw [List.getElem_take]
    rw [← h2]
    exact List.getElem_mem hlt
  have htB : t ∈ (tiers.drop b).flatten := by
    apply List.mem_flatten.mpr
    refine ⟨tiers[b], ?_, ?_⟩
    · rw [List.drop_eq_getElem_cons hb]
      exact List.mem_cons_self _ _
    · rw [List.getD_eq_getElem tiers [] hb] at ht
      exact ht
  have hflat : tiers.flatten =
      (tiers.take b).flatten ++ (tiers.drop b).flatten := by
    conv_lhs => rw [← List.take_append_drop b tiers]
    rw [List.flatten_append]
  rw [hflat, List.map_append] at hnd
  obtain ⟨hn1, hn2, hdisj⟩ := List.nodup_append.mp hnd
  have hdid_A : d.id ∈ (tiers.take b).flatten.map (fun u => u.id) :=
    List.mem_map_of_mem (fun u => u.id) hdA
  have htid_B : t.id ∈ (tiers.drop b).flatten.map (fun u => u.id) :=
    List.mem_map_of_mem (fun u => u.id) htB
  have hdid_nB : d.id ∉ (tiers.drop b).flatten.map (fun u => u.id) :=
    fun hc => hdisj hdid_A hc
  have htid_nA : t.id ∉ (tiers.take b).flatten.map (fun u => u.id) :=
    fun hc => hdisj hc htid_B
  obtain ⟨i, hi, hi0, hiA⟩ := indexLookup_entries_some
    (tiers.take b).flatten d.id 0 hdid_A
  obtain ⟨j, hj, hjB, hjtop⟩ := indexLookup_entries_some
    (tiers.drop b).flatten t.id (tiers.take b).flatten.length htid_B
  unfold buildIndexMap
  rw [hflat]
  refine ⟨i, j, ?_, ?_, by omega⟩
  · rw [indexLookup_append_left _ _ _ hdid_nB]
    exact hi
  · rw [indexLookup_append_right _ _ _ htid_nA]
    exact hj

theorem map_fst_pairing (l : List Task) (g : Task → Nat) :
    (l.map (fun t => (t, g t))).map (fun p => p.1) = l := by
  induction l with
  | nil => rfl
  | cons t ts ih =>
    rw [List.map_cons, List.map_cons, ih]

/-- A concrete two-task acyclic dependency-closed graph used to instantiate
the `computeTiers` theorems. -/
def demoTaskA : Task :=
  { id := "a", action_id := "x", prompt := "p", status := "pending",
    agent_type := "m", model := none, dependencies := [],
    output_summary := none, created_at := "c", updated_at := "u" }

/-- The second demo task, depending on the first. -/
def demoTaskB : Task :=
  { id := "b", action_id := "x", prompt := "p", status := "pending",
    agent_type := "m", model := none, dependencies := ["a"],
    output_summary := none, created_at := "c", updated_at := "u" }

/-- The demo task list. -/
def demoTasks : List Task := [demoTaskA, demoTaskB]

/-- Claim C6: for every dependency-closed, acyclic task list (ids unique
per the data model), `computeTiers` terminates successfully — the `getTier`
recursion is well-founded along the dependency relation, so the fuel of one
frame per task is never exhausted — and assigns exactly one tier to every
task: the concatenation of the returned tiers is a permutation of the
input list. -/
theorem c6_computeTiers_total (tasks : List Task)
    (hnodup : (tasks.map (fun u => u.id)).Nodup)
    (hclosed : DepClosed tasks)
    (hacyc : AcyclicRank (taskNodes tasks)) :
    ∃ tiers, computeTiers tasks = some tiers ∧ tiers.flatten.Perm tasks := by
  obtain ⟨r, hra⟩ := acyclicRank_tasks tasks hacyc
  have hlen : ∀ t ∈ tasks, r t.id < tasks.length := fun t ht => (hra t ht).1
  have hr : ∀ t ∈ tasks, ∀ d ∈ t.dependencies, r d < r t.id :=
    fun t ht => (hra t ht).2
  refine ⟨groupTiers (tasks.map (fun t => (t, tierVal tasks t.id))),
    computeTiers_eq tasks hnodup hclosed r hlen hr, ?_⟩
  refine (flatten_groupTiers_perm _).trans ?_
  rw [map_fst_pairing]

/-- Witness for C6 on the concrete two-task acyclic graph. -/
theorem c6_witness : (computeTiers demoTasks).isSome := by
  obtain ⟨tiers, h1, -⟩ := c6_computeTiers_total demoTasks (by decide)
    (by unfold DepClosed; decide)
    ⟨fun id => if id = "b" then 1 else 0, by decide⟩
  rw [h1]
  rfl

/-- Claim C5: on a dependency-closed, acyclic task list (ids unique per the
data model), `computeTiers` gives tier 0 to every task without
dependencies and tier 1 + the maximum dependency tier to every other task,
places each task in the group of its tier, and the index map built by
`buildIndexMap` over the concatenated tiers is a topological order: every
task's index is strictly greater than each of its dependencies'. -/
theorem c5_computeTiers_topological (tasks : List Task)
    (hnodup : (tasks.map (fun u => u.id)).Nodup)
    (hclosed : DepClosed tasks)
    (hacyc : AcyclicRank (taskNodes tasks)) :
    (∀ t ∈ tasks, t.dependencies = [] → tierVal tasks t.id = 0) ∧
    (∀ t ∈ tasks, t.dependencies ≠ [] → tierVal tasks t.id =
      (t.dependencies.map (tierVal tasks)).foldl Nat.max 0 + 1) ∧
    (∀ t ∈ tasks, ∀ d ∈ t.dependencies,
      tierVal tasks d < tierVal tasks t.id) ∧
    (∀ tiers, computeTiers tasks = some tiers →
      (∀ t ∈ tasks, t ∈ tiers.getD (tierVal tasks t.id) []) ∧
      (∀ t ∈ tasks, ∀ d ∈ t.dependencies, ∃ i j,
        indexLookup (buildIndexMap tiers) d = some i ∧
        indexLookup (buildIndexMap tiers) t.id = some j ∧ i < j)) := by
  obtain ⟨r, hra⟩ := acyclicRank_tasks tasks hacyc
  have hlen : ∀ t ∈ tasks, r t.id < tasks.length := fun t ht => (hra t ht).1
  have hr : ∀ t ∈ tasks, ∀ d ∈ t.dependencies, r d < r t.id :=
    fun t ht => (hra t ht).2
  have hspec := fun t (ht : t ∈ tasks) =>
    getTier_spec tasks hnodup hclosed r hlen hr t ht
  have hlt : ∀ t ∈ tasks, ∀ d ∈ t.dependencies,
      tierVal tasks d < tierVal tasks t.id := by
    intro t ht d hd
    have hne : t.dependencies ≠ [] := List.ne_nil_of_mem hd
    have h2 := (hspec t ht).2.2 hne
    have h3 : tierVal tasks d ≤
        (t.dependencies.map (tierVal tasks)).foldl Nat.max 0 :=
      le_foldl_max _ 0 _ (List.mem_map_of_mem (tierVal tasks) hd)
    omega
  refine ⟨fun t ht => (hspec t ht).2.1, fun t ht => (hspec t ht).2.2,
    hlt, ?_⟩
  intro tiers htiers
  have hceq := computeTiers_eq tasks hnodup hclosed r hlen hr
  rw [htiers] at hceq
  have htg : tiers =
      groupTiers (tasks.map (fun t => (t, tierVal tasks t.id))) :=
    Option.some.inj hceq
  subst htg
  have hplace : ∀ t ∈ tasks,
      t ∈ (groupTiers (tasks.map (fun u => (u, tierVal tasks u.id)))).getD
        (tierVal tasks t.id) [] := by
    intro t ht
    rw [getD_groupTiers]
    apply List.mem_map.mpr
    refine ⟨(t, tierVal tasks t.id), ?_, rfl⟩
    apply List.mem_filter.mpr
    exact ⟨List.mem_map_of_mem _ ht, by simp⟩
  have hperm : (groupTiers
      (tasks.map (fun u => (u, tierVal tasks u.id)))).flatten.Perm tasks := by
    refine (flatten_groupTiers_perm _).trans ?_
    rw [map_fst_pairing]
  have hnd : ((groupTiers
      (tasks.map (fun u => (u, tierVal tasks u.id)))).flatten.map
        (fun u => u.id)).Nodup := by
    have hmp := hperm.map (fun u => u.id)
    exact (List.Perm.nodup_iff hmp).mpr hnodup
  refine ⟨hplace, ?_⟩
  intro t ht d hd
  obtain ⟨td, htd, htdid⟩ : ∃ td, td ∈ tasks ∧ td.id = d := by
    obtain ⟨td, htd, heq⟩ := List.mem_map.mp (hclosed t ht d hd)
    exact ⟨td, htd, heq⟩
  have hdx := hplace td htd
  have htx := hplace t ht
  have hab : tierVal tasks td.id < tierVal tasks t.id := by
    rw [htdid]
    exact hlt t ht d hd
  obtain ⟨i, j, hi, hj, hij⟩ := index_order _ hnd _ _ hab td t hdx htx
  refine ⟨i, j, ?_, hj, hij⟩
  rw [← htdid]
  exact hi

/-- Witness for C5 on the concrete two-task acyclic graph. -/
theorem c5_witness :
    tierVal demoTasks "a" = 0 ∧
    tierVal demoTasks "a" < tierVal demoTasks "b" := by
  have h := c5_computeTiers_topological demoTasks (by decide)
    (by unfold DepClosed; decide)
    ⟨fun id => if id = "b" then 1 else 0, by decide⟩
  exact ⟨h.1 demoTaskA (by simp [demoTasks]) rfl,
    h.2.2.1 demoTaskB (by simp [demoTasks]) "a" (by decide)⟩

/-! ### The mutation engine (spec section 4.5)
The engine is backend code that is not among the repository sources here
(only its frontend caller, TaskCardEditor, is), so it is modelled from the
spec. -/

theorem contains_iff_mem_str (l : List String) (a : String) :
    l.contains a = true ↔ a ∈ l := by
  constructor
  · exact fun h => List.mem_of_elem_eq_true h
  · exact fun h => List.elem_eq_true_of_mem h

/-- Modelled from the spec: a TaskOutput (section 3) — short textual
summary plus artifact references; detached (not deleted) on reset. -/
structure TOutput where
  summary : String
  artifacts : List String
deriving DecidableEq

/-- Modelled from the spec: the backend task record of section 3, the part
the mutation engine touches.  `output` is the attached current TaskOutput,
`none` when the task has no attached output. -/
structure BTask where
  id : String
  prompt : String
  agent_type : String
  model : Option String
  dependencies : List String
  status : String
  output : Option TOutput
deriving DecidableEq

/-- Modelled from the spec: the patch of Edit(task_id, patch)
(sections 4.5 and 6): optional prompt, agent type, model and
dependencies. -/
structure BPatch where
  prompt : Option String := none
  agent_type : Option String := none
  model : Option (Option String) := none
  dependencies : Option (List String) := none

/-- Modelled from the spec: step 2 of Edit — apply the patch to the
task. -/
def applyPatch (tasks : List BTask) (tid : String) (p : BPatch) :
    List BTask :=
  tasks.map (fun t =>
    if t.id = tid then
      { t with prompt := p.prompt.getD t.prompt,
               agent_type := p.agent_type.getD t.agent_type,
               model := p.model.getD t.model,
               dependencies := p.dependencies.getD t.dependencies }
    else t)

/-- Modelled from the spec: one round of collecting direct dependents — add
every task not yet in the set that has a dependency in the set. -/
def dependentsStep (tasks : List BTask) (acc : List String) : List String :=
  acc ++ (tasks.filter (fun t =>
    !acc.contains t.id &&
      t.dependencies.any (fun d => acc.contains d))).map (fun t => t.id)

/-- Modelled from the spec: iterate `dependentsStep`. -/
def iterDependents (tasks : List BTask) : Nat → List String → List String
  | 0, acc => acc
  | k+1, acc => iterDependents tasks k (dependentsStep tasks acc)

/-- Modelled from the spec: the invalidation set
{task_id} ∪ transitive_dependents(task_id) of section 4.5, computed as a
bounded fixpoint iteration — one round per task reaches every transitive
dependent of an acyclic graph. -/
def invalidationSet (tasks : List BTask) (tid : String) : List String :=
  iterDependents tasks tasks.length [tid]

/-- Modelled from the spec: steps 2-5 of Edit(task_id, patch) — apply the
patch, compute the invalidation set on the patched graph, and atomically
reset every task in it to pending with its output detached; every other
task is untouched. -/
def editTask (tasks : List BTask) (tid : String) (p : BPatch) : List BTask :=
  let patched := applyPatch tasks tid p
  let inv := invalidationSet patched tid
  patched.map (fun t =>
    if inv.contains t.id then { t with status := "pending", output := none }
    else t)

/-- Direct dependency: the task with id u lists v among its
dependencies. -/
def DependsOn (tasks : List BTask) (u v : String) : Prop :=
  ∃ t ∈ tasks, t.id = u ∧ v ∈ t.dependencies

/-- u is a transitive dependent of v (glossary: the invalidation set is a
task plus its transitive dependents). -/
def TransDependent (tasks : List BTask) (u v : String) : Prop :=
  Relation.TransGen (fun x y => DependsOn tasks x y) u v

/-- The dependency graph of a backend task list. -/
def bTaskNodes (tasks : List BTask) : List (String × List String) :=
  tasks.map (fun t => (t.id, t.dependencies))

theorem subset_dependentsStep (tasks : List BTask) (acc : List String)
    (a : String) (ha : a ∈ acc) : a ∈ dependentsStep tasks acc :=
  List.mem_append.mpr (Or.inl ha)

theorem iter_succ_outer (tasks : List BTask) : ∀ (k : Nat)
    (acc : List String),
    iterDependents tasks (k + 1) acc =
      dependentsStep tasks (iterDependents tasks k acc) := by
  intro k
  induction k with
  | zero => intro acc; rfl
  | succ k ih =>
    intro acc
    show iterDependents tasks (k + 1) (dependentsStep tasks acc) = _
    rw [ih (dependentsStep tasks acc)]
    rfl

theorem subset_iterDependents (tasks : List BTask) : ∀ (m : Nat)
    (acc : List String) (a : String), a ∈ acc →
    a ∈ iterDependents tasks m acc := by
  intro m
  induction m with
  | zero => intro acc a ha; exact ha
  | succ m ih =>
    intro acc a ha
    exact ih (dependentsStep tasks acc) a
      (subset_dependentsStep tasks acc a ha)

theorem iterDependents_add (tasks : List BTask) : ∀ (k m : Nat)
    (acc : List String),
    iterDependents tasks (k + m) acc =
      iterDependents tasks m (iterDependents tasks k acc) := by
  intro k
  induction k with
  | zero =>
    intro m acc
    rw [Nat.zero_add]
    rfl
  | succ k ih =>
    intro m acc
    have h1 : k + 1 + m = (k + m) + 1 := by omega
    rw [h1]
    show iterDependents tasks (k + m) (dependentsStep tasks acc) = _
    rw [ih m (dependentsStep tasks acc)]
    rfl

theorem iterDependents_mono (tasks : List BTask) (k m : Nat) (h : k ≤ m)
    (acc : List String) (a : String)
    (ha : a ∈ iterDependents tasks k acc) :
    a ∈ iterDependents tasks m acc := by
  obtain ⟨j, rfl⟩ : ∃ j, m = k + j := ⟨m - k, by omega⟩
  rw [iterDependents_add]
  exact subset_iterDependents tasks j _ a ha

theorem iter_sound (tasks : List BTask) (tid : String) : ∀ (k : Nat)
    (acc : List String),
    (∀ a ∈ acc, a = tid ∨ TransDependent tasks a tid) →
    ∀ u ∈ iterDependents tasks k acc,
      u = tid ∨ TransDependent tasks u tid := by
  intro k
  induction k with
  | zero => intro acc hacc u hu; exact hacc u hu
  | succ k ih =>
    intro acc hacc u hu
    refine ih (dependentsStep tasks acc) ?_ u hu
    intro a ha
    rcases List.mem_append.mp ha with h1 | h1
    · exact hacc a h1
    · obtain ⟨t, htf, rfl⟩ := List.mem_map.mp h1
      obtain ⟨htm, hcond⟩ := List.mem_filter.mp htf
      have hany : t.dependencies.any (fun d => acc.contains d) = true :=
        ((Bool.and_eq_true _ _).mp hcond).2
      obtain ⟨d, hd, hdc⟩ := List.any_eq_true.mp hany
      have hdmem : d ∈ acc := (contains_iff_mem_str acc d).mp hdc
      have hdep : DependsOn tasks t.id d := ⟨t, htm, rfl, hd⟩
      rcases hacc d hdmem with h2 | h2
      · exact Or.inr (Relation.TransGen.single (h2 ▸ hdep))
      · exact Or.inr (Relation.TransGen.head hdep h2)

theorem mem_dependentsStep_of_dep (tasks : List BTask) (acc : List String)
    (u v : String) (hv : v ∈ acc) (hdep : DependsOn tasks u v) :
    u ∈ dependentsStep tasks acc := by
  by_cases hu : u ∈ acc
  · exact List.mem_append.mpr (Or.inl hu)
  · obtain ⟨t, htm, htid, hvd⟩ := hdep
    apply List.mem_append.mpr
    right
    apply List.mem_map.mpr
    refine ⟨t, ?_, htid⟩
    apply List.mem_filter.mpr
    refine ⟨htm, ?_⟩
    apply (Bool.and_eq_true _ _).mpr
    constructor
    · cases hc : acc.contains t.id with
      | false => rfl
      | true =>
        exact absurd ((contains_iff_mem_str acc t.id).mp hc)
          (by rw [htid]; exact hu)
    · exact List.any_eq_true.mpr
        ⟨v, hvd, (contains_iff_mem_str acc v).mpr hv⟩

theorem iter_complete (tasks : List BTask) (tid : String) (r : String → Nat)
    (hlen : ∀ t ∈ tasks, r t.id < tasks.length)
    (hr : ∀ t ∈ tasks, ∀ d ∈ t.dependencies, r d < r t.id) :
    ∀ u, TransDependent tasks u tid → u ∈ invalidationSet tasks tid := by
  have key : ∀ v, TransDependent tasks v tid →
      v ∈ iterDependents tasks (r v + 1) [tid] := by
    intro v htv
    induction htv using Relation.TransGen.head_induction_on with
    | base h =>
      rename_i a
      have h1 : a ∈ dependentsStep tasks [tid] :=
        mem_dependentsStep_of_dep tasks [tid] a tid
          (List.mem_singleton.mpr rfl) h
      exact subset_iterDependents tasks (r a) (dependentsStep tasks [tid])
        a h1
    | ih h htc ihp =>
      rename_i a c
      have hca : r c < r a := by
        obtain ⟨t, htm, htid, hcd⟩ := h
        have := hr t htm c hcd
        rwa [htid] at this
      have h2 : a ∈ iterDependents tasks (r c + 2) [tid] := by
        rw [iter_succ_outer]
        exact mem_dependentsStep_of_dep tasks _ a c ihp h
      exact iterDependents_mono tasks (r c + 2) (r a + 1) (by omega)
        [tid] a h2
  intro u htr
  have hfirst : ∃ t, t ∈ tasks ∧ t.id = u := by
    induction htr using Relation.TransGen.head_induction_on with
    | base h =>
      obtain ⟨t, htm, htid, -⟩ := h
      exact ⟨t, htm, htid⟩
    | ih h htc ihp =>
      obtain ⟨t, htm, htid, -⟩ := h
      exact ⟨t, htm, htid⟩
  obtain ⟨t, htm, htid⟩ := hfirst
  have hru : r u < tasks.length := by
    have := hlen t htm
    rwa [htid] at this
  exact iterDependents_mono tasks (r u + 1) tasks.length (by omega)
    [tid] u (key u htr)

theorem invalidationSet_spec (tasks : List BTask) (tid : String)
    (hacyc : AcyclicRank (bTaskNodes tasks)) :
    tid ∈ invalidationSet tasks tid ∧
    ∀ u, u ∈ invalidationSet tasks tid ↔
      (u = tid ∨ TransDependent tasks u tid) := by
  obtain ⟨r, hra⟩ := hacyc
  have hmem : ∀ t ∈ tasks, (t.id, t.dependencies) ∈ bTaskNodes tasks :=
    fun t ht => List.mem_map_of_mem (fun u => (u.id, u.dependencies)) ht
  have hlen : ∀ t ∈ tasks, r t.id < tasks.length := by
    intro t ht
    have h2 := (hra _ (hmem t ht)).1
    simpa [bTaskNodes] using h2
  have hr : ∀ t ∈ tasks, ∀ d ∈ t.dependencies, r d < r t.id :=
    fun t ht => (hra _ (hmem t ht)).2
  have hin : tid ∈ invalidationSet tasks tid :=
    subset_iterDependents tasks tasks.length [tid] tid
      (List.mem_singleton.mpr rfl)
  refine ⟨hin, fun u => ⟨?_, ?_⟩⟩
  · intro hu
    exact iter_sound tasks tid tasks.length [tid]
      (fun a ha => Or.inl (List.mem_singleton.mp ha)) u hu
  · intro hu
    rcases hu with h | h
    · subst h
      exact hin
    · exact iter_complete tasks tid r hlen hr u h

/-- Claim C7 (spec-modelled): after edit(t, patch), every task in
{t} ∪ transitive_dependents(t) — dependents computed on the patched graph,
per the spec's step order — has status pending and no attached current
output, and every task outside that set, in particular every upstream
task, is exactly the original task, with status, output and artifact
references unchanged.  A validated edit leaves the graph acyclic
(spec section 4.5 step 2), which is the theorem's hypothesis. -/
theorem c7_edit_invalidation (tasks : List BTask) (tid : String)
    (p : BPatch)
    (hacyc : AcyclicRank (bTaskNodes (applyPatch tasks tid p))) :
    (tid ∈ invalidationSet (applyPatch tasks tid p) tid) ∧
    (∀ u, u ∈ invalidationSet (applyPatch tasks tid p) tid ↔
      (u = tid ∨ TransDependent (applyPatch tasks tid p) u tid)) ∧
    (∀ u ∈ editTask tasks tid p,
      (u.id = tid ∨ TransDependent (applyPatch tasks tid p) u.id tid) →
      u.status = "pending" ∧ u.output = none) ∧
    (∀ t ∈ tasks,
      ¬(t.id = tid ∨ TransDependent (applyPatch tasks tid p) t.id tid) →
      t ∈ editTask tasks tid p) := by
  obtain ⟨hin, hiff⟩ :=
    invalidationSet_spec (applyPatch tasks tid p) tid hacyc
  refine ⟨hin, hiff, ?_, ?_⟩
  · intro u hu hcond
    simp only [editTask] at hu
    obtain ⟨t', ht', heq⟩ := List.mem_map.mp hu
    by_cases hc :
        (invalidationSet (applyPatch tasks tid p) tid).contains t'.id = true
    · rw [if_pos hc] at heq
      subst heq
      exact ⟨rfl, rfl⟩
    · rw [if_neg hc] at heq
      subst heq
      have hmem : t'.id ∈ invalidationSet (applyPatch tasks tid p) tid :=
        (hiff t'.id).mpr hcond
      exact absurd ((contains_iff_mem_str _ _).mpr hmem) hc
  · intro t ht hcond
    have hne : t.id ≠ tid := fun hc => hcond (Or.inl hc)
    have hnin : t.id ∉ invalidationSet (applyPatch tasks tid p) tid :=
      fun hmem => hcond ((hiff t.id).mp hmem)
    have hpt : t ∈ applyPatch tasks tid p := by
      simp only [applyPatch]
      apply List.mem_map.mpr
      refine ⟨t, ht, ?_⟩
      rw [if_neg hne]
    have hcf :
        ¬((invalidationSet (applyPatch tasks tid p) tid).contains t.id
          = true) :=
      fun hc => hnin ((contains_iff_mem_str _ _).mp hc)
    simp only [editTask]
    apply List.mem_map.mpr
    refine ⟨t, hpt, ?_⟩
    rw [if_neg hcf]

/-- A concrete backend task without dependencies, carrying an output. -/
def demoBTaskA : BTask :=
  { id := "a", prompt := "p", agent_type := "m", model := none,
    dependencies := [], status := "completed",
    output := some { summary := "s", artifacts := ["f1"] } }

/-- A concrete backend task depending on the first. -/
def demoBTaskB : BTask :=
  { id := "b", prompt := "q", agent_type := "m", model := none,
    dependencies := ["a"], status := "completed",
    output := some { summary := "s2", artifacts := [] } }

/-- The concrete backend graph for the C7 witness. -/
def demoBTasks : List BTask := [demoBTaskA, demoBTaskB]

/-- A concrete edit patch for the C7 witness. -/
def demoBPatch : BPatch := { prompt := some "edited" }

/-- Witness for C7 on the concrete two-task backend graph. -/
theorem c7_witness :
    "a" ∈ invalidationSet (applyPatch demoBTasks "a" demoBPatch) "a" ∧
    ("b" ∈ invalidationSet (applyPatch demoBTasks "a" demoBPatch) "a" ↔
      ("b" = "a" ∨
        TransDependent (applyPatch demoBTasks "a" demoBPatch) "b" "a")) := by
  have h := c7_edit_invalidation demoBTasks "a" demoBPatch
    ⟨fun id => if id = "b" then 1 else 0, by decide⟩
  exact ⟨h.1, h.2.1 "b"⟩
